import Mathlib

/-!
Verification of the skill normalization / deduplication / categorization
pipeline of `skill_extractor.py`.

Strings are modelled as `List Char`; each Python string operation or regex
used by the source is translated into an executable Lean function.  Python
regex substitutions are modelled by structurally recursive scanners (with an
explicit fuel argument where a scan step consumes a variable number of
characters; the fuel is always instantiated with the string length, which is
sufficient because every step consumes at least one character).
-/

namespace SkillExtractor

/-- Characters matched by Python's `\s` (ASCII range), also the characters
stripped by `str.strip()` for ASCII input. -/
def pySpace (c : Char) : Bool :=
  c = ' ' || c = '\t' || c = '\n' || c = '\r' || c = '\x0b' || c = '\x0c'

/-- Characters matched by Python's `\w` (ASCII range): letters, digits, `_`. -/
def wordChar (c : Char) : Bool :=
  c.isAlphanum || c = '_'

/-- Wordness (`\w`) of an optional character; out-of-range positions count as
non-word for `\b` purposes. -/
def wordOpt : Option Char → Bool
  | none => false
  | some c => wordChar c

/-- A `\b` word boundary between two adjacent positions. -/
def boundary (a b : Option Char) : Bool :=
  wordOpt a != wordOpt b

def digitOpt : Option Char → Bool
  | none => false
  | some c => c.isDigit

/-- Python `str.lower()` (ASCII model). -/
def pyLower (s : List Char) : List Char :=
  s.map Char.toLower

/-- Python `str.strip()`. -/
def pyStrip (s : List Char) : List Char :=
  ((s.dropWhile pySpace).reverse.dropWhile pySpace).reverse

/-- Replace every maximal run of characters satisfying
`p` by the single character `r`.  Used for `[\_\t]+ -> ' '` and `\s+ -> ' '`. -/
def subRuns (p : Char → Bool) (r : Char) : List Char → List Char
  | [] => []
  | [c] => if p c then [r] else [c]
  | a :: b :: rest =>
    if p a && p b then subRuns p r (b :: rest)
    else (if p a then r else a) :: subRuns p r (b :: rest)

/-- Python `s.replace(old, new)` for single characters. -/
def replaceChar (old new : Char) (s : List Char) : List Char :=
  s.map (fun c => if c = old then new else c)

def slashChar (c : Char) : Bool :=
  c = '/' || c = '\\'

/-- Try to match `\s*[\/\\]+\s*` at the start of `s`; on success return the
rest of the string after the (greedy) match. -/
def trySlash (s : List Char) : Option (List Char) :=
  let w := s.dropWhile pySpace
  let sl := w.dropWhile slashChar
  if w.length = sl.length then none
  else some (sl.dropWhile pySpace)

/-- The substitution `re.sub(r'\s*[\/\\]+\s*', ' / ', s)`, fuelled scan. -/
def slashSubF : Nat → List Char → List Char
  | _, [] => []
  | 0, s => s
  | fuel + 1, c :: cs =>
    match trySlash (c :: cs) with
    | some rest => ' ' :: '/' :: ' ' :: slashSubF fuel rest
    | none => c :: slashSubF fuel cs

def slashSub (s : List Char) : List Char :=
  slashSubF s.length s

/-- Python `s.replace(k, v)`: replace all non-overlapping occurrences of `k`,
scanning left to right, fuelled. -/
def strReplaceF (k v : List Char) : Nat → List Char → List Char
  | _, [] => []
  | 0, s => s
  | fuel + 1, c :: cs =>
    if k.isPrefixOf (c :: cs) then v ++ strReplaceF k v fuel ((c :: cs).drop k.length)
    else c :: strReplaceF k v fuel cs

def strReplace (k v s : List Char) : List Char :=
  strReplaceF k v s.length s

/-- Python's substring test `k in s`. -/
def containsSub (k : List Char) : List Char → Bool
  | [] => k.isEmpty
  | c :: cs => k.isPrefixOf (c :: cs) || containsSub k cs

/-- The substitution `re.sub(r'(?<!\d)\.(?!\d)', ' ', s)`: a period becomes a space
unless both its original neighbours are digits; `prev` is the original previous
character. -/
def periodSub : Option Char → List Char → List Char
  | _, [] => []
  | prev, c :: cs =>
    (if c = '.' && !digitOpt prev && !digitOpt cs.head? then ' ' else c)
      :: periodSub (some c) cs

/-- Try to match `\busb\s+3\s+0\b` at the start of `s` (`prev` is the
original previous character, used for the left word boundary); on success
return the rest after the match. -/
def tryUsb (prev : Option Char) (s : List Char) : Option (List Char) :=
  if wordOpt prev then none
  else
    match s with
    | 'u' :: 's' :: 'b' :: r0 =>
      let w1 := r0.takeWhile pySpace
      let r1 := r0.dropWhile pySpace
      if w1.isEmpty then none
      else
        match r1 with
        | '3' :: r2 =>
          let w2 := r2.takeWhile pySpace
          let r3 := r2.dropWhile pySpace
          if w2.isEmpty then none
          else
            match r3 with
            | '0' :: r4 => if wordOpt r4.head? then none else some r4
            | _ => none
        | _ => none
    | _ => none

/-- The substitution `re.sub(r'\busb\s+3\s+0\b', 'usb 3.0', s)`, fuelled scan. -/
def usbSubF : Nat → Option Char → List Char → List Char
  | _, _, [] => []
  | 0, _, s => s
  | fuel + 1, prev, c :: cs =>
    match tryUsb prev (c :: cs) with
    | some rest => 'u' :: 's' :: 'b' :: ' ' :: '3' :: '.' :: '0' :: usbSubF fuel (some '0') rest
    | none => c :: usbSubF fuel (some c) cs

def usbSub (s : List Char) : List Char :=
  usbSubF s.length none s

/-- The table `NORMALIZE_MAP`, in the dict literal's (insertion) order. -/
def NORMALIZE_MAP : List (List Char × List Char) :=
  [("react.js".toList, "react".toList),
   ("reactjs".toList, "react".toList),
   ("nodejs".toList, "node.js".toList),
   ("node js".toList, "node.js".toList),
   ("powerbi".toList, "power bi".toList),
   ("u boot".toList, "u-boot".toList),
   ("u_boot".toList, "u-boot".toList),
   ("device-tree".toList, "device tree".toList),
   ("embedded c".toList, "c".toList),
   ("c plus plus".toList, "c++".toList),
   ("cplusplus".toList, "c++".toList),
   ("usb 3 0".toList, "usb 3.0".toList),
   ("usb3.0".toList, "usb 3.0".toList),
   ("wi fi".toList, "wi-fi".toList),
   ("wi-fi".toList, "wi-fi".toList),
   ("i 2 c".toList, "i2c".toList),
   ("i 2 s".toList, "i2s".toList),
   ("yocto project".toList, "yocto".toList),
   ("petalinux sdk".toList, "petalinux".toList),
   ("system verilog".toList, "systemverilog".toList),
   ("devops".toList, "devops".toList),
   ("microcontrollers".toList, "microcontroller".toList)]

/-- One entry of the `for k, v in NORMALIZE_MAP.items()` loop:
`if s == k or k in s: s = s.replace(k, v)`. -/
def applyMapEntry (s : List Char) (kv : List Char × List Char) : List Char :=
  if s = kv.1 || containsSub kv.1 s then strReplace kv.1 kv.2 s else s

/-- The whole `NORMALIZE_MAP` rewrite loop. -/
def applyNormalizeMap (s : List Char) : List Char :=
  NORMALIZE_MAP.foldl applyMapEntry s

/-- The function `normalize_token` on `List Char`, stage by stage as in the source. -/
def normCore (tok : List Char) : List Char :=
  if tok = [] then tok
  else
    let s := pyLower (pyStrip tok)
    let s := subRuns (fun c => c = '_' || c = '\t') ' ' s
    let s := slashSub s
    let s := replaceChar ',' ' ' s
    let s := subRuns pySpace ' ' s
    let s := applyNormalizeMap s
    let s := periodSub none s
    let s := pyStrip s
    let s := usbSub s
    let s := subRuns pySpace ' ' s
    if s = "node".toList then "node.js".toList
    else if s = "reactjs".toList then "react".toList
    else s

/-- The function `normalize_token` on `String`. -/
def normalize_token (tok : String) : String :=
  (normCore tok.toList).asString

/-! Deduplication -/

/-- The seen-set loop of `dedupe_preserve_order` (the Python `set` is
modelled as a list queried by membership). -/
def dedupeGo (seen : List (List Char)) : List (List Char) → List (List Char)
  | [] => []
  | x :: xs => if x ∈ seen then dedupeGo seen xs else x :: dedupeGo (x :: seen) xs

def dedupe_preserve_order (items : List (List Char)) : List (List Char) :=
  dedupeGo [] items

/-! Categorization -/

def LANGUAGES : List (List Char) :=
  ["c", "c++", "c#", "python", "java", "javascript", "typescript", "go", "rust",
   "ruby", "php", "scala", "kotlin", "swift", "r"].map String.toList

def TOOLS : List (List Char) :=
  ["git", "gdb", "cmake", "make", "gcc", "clang", "vivado", "quartus", "jtag",
   "docker", "helm", "ansible"].map String.toList

def PROTOCOLS : List (List Char) :=
  ["i2c", "spi", "uart", "gpio", "pcie", "usb", "ethernet", "can", "i2s",
   "wi-fi", "wifi", "lte", "bluetooth"].map String.toList

def PLATFORMS : List (List Char) :=
  ["embedded linux", "yocto", "petalinux", "u-boot", "raspberry pi", "stm32",
   "arm", "nxp", "imx", "xilinx zynq", "xilinx rfsoc", "xilinx mpsoc"].map String.toList

def DRIVERS : List (List Char) :=
  ["kernel drivers", "device drivers", "driver development", "bootloader",
   "board bring-up", "bsp", "firmware", "kernel", "linux kernel"].map String.toList

def OTHER_HINTS : List (List Char) :=
  ["linux", "bash", "shell", "systemd", "sysvinit", "excel", "tableau",
   "power bi", "etl", "spark", "hadoop"].map String.toList

/-- The branch chain of `categorize_skill`, applied to the already lowered
skill `low`. -/
def categorizeLow (low : List Char) : List Char :=
  if low ∈ LANGUAGES then "languages".toList
  else if low ∈ TOOLS then "tools".toList
  else if low ∈ PROTOCOLS then "protocols".toList
  else if low ∈ PLATFORMS then "platforms".toList
  else if low ∈ DRIVERS then "drivers".toList
  else if low ∈ OTHER_HINTS then "other".toList
  else if (["driver", "kernel", "bootloader", "bsp", "board bring-up",
            "firmware"].map String.toList).any (fun k => containsSub k low) then
    "drivers".toList
  else if (["linux", "embedded", "yocto", "petalinux",
            "u-boot"].map String.toList).any (fun k => containsSub k low) then
    "platforms".toList
  else if (["aws", "azure", "gcp", "docker", "kubernetes", "terraform",
            "ansible"].map String.toList).any (fun k => containsSub k low) then
    "tools".toList
  else if (["i2c", "spi", "uart", "gpio", "usb", "ethernet", "can", "i2s",
            "bluetooth", "wi-fi"].map String.toList).any (fun k => containsSub k low) then
    "protocols".toList
  else if (["python", "java", "c++", "c#", "javascript", "typescript", "go",
            "rust"].map String.toList).any (fun k => containsSub k low) then
    "languages".toList
  else "other".toList

/-- The function `categorize_skill` on `List Char`: `low = skill.lower()`,
then the branch chain. -/
def categorizeCore (skill : List Char) : List Char :=
  categorizeLow (pyLower skill)

/-- The function `categorize_skill` on `String`. -/
def categorize_skill (skill : String) : String :=
  (categorizeCore skill.toList).asString

/-! Local keyword scan: `re.search` of escaped keyword between word boundaries. -/

def BASE_KEYWORDS : List (List Char) :=
  ["c", "c++", "c#", "python", "java", "javascript", "typescript", "go", "rust",
   "ruby", "php", "scala", "kotlin", "swift", "r",
   "react", "angular", "vue", "next.js", "svelte", "html", "css", "sass", "tailwind",
   "node.js", "express", "django", "flask", "spring boot", "spring", "laravel", "asp.net",
   "sql", "postgresql", "mysql", "mongodb", "redis", "oracle", "mssql", "cassandra",
   "aws", "azure", "gcp", "docker", "kubernetes", "terraform", "ansible", "helm",
   "jenkins", "github actions", "gitlab-ci", "circleci",
   "pandas", "numpy", "scikit-learn", "tensorflow", "pytorch", "xgboost",
   "lightgbm", "nlp", "opencv", "spacy",
   "spark", "hadoop", "etl", "airflow",
   "embedded linux", "yocto", "petalinux", "u-boot", "device tree", "kernel",
   "linux kernel", "bsp",
   "arm", "raspberry pi", "stm32", "nxp", "imx", "qualcomm",
   "i2c", "spi", "uart", "gpio", "pcie", "usb", "ethernet", "can", "i2s",
   "board bring-up", "firmware", "bootloader", "driver development",
   "kernel drivers", "device drivers",
   "git", "gdb", "cmake", "make", "gcc", "clang", "vivado", "quartus", "jtag",
   "linux", "bash", "shell", "systemd", "sysvinit", "excel", "tableau",
   "power bi", "docker-compose"].map String.toList

/-- Does `\b kw \b` (with `kw` taken literally, as after `re.escape`) match
at the start of `s`, where `prev` is the character just before `s`? -/
def matchHere (kw : List Char) (prev : Option Char) (s : List Char) : Bool :=
  kw.isPrefixOf s && boundary prev kw.head?
    && boundary kw.getLast? (s.drop kw.length).head?

/-- Scan of `re.search`: try the anchored match at every position. -/
def kwGo (kw : List Char) (prev : Option Char) : List Char → Bool
  | [] => matchHere kw prev []
  | c :: cs => matchHere kw prev (c :: cs) || kwGo kw (some c) cs

def kwMatches (kw text : List Char) : Bool :=
  kwGo kw none text

/-- The local fallback scan of `process_resume_file`: every base keyword that
matches the lowered text at least once, in `BASE_KEYWORDS` order. -/
def localScan (text : List Char) : List (List Char) :=
  BASE_KEYWORDS.filter (fun kw => kwMatches kw (pyLower text))

/-! Processing a single document -/

/-- A Python value, as far as the pipeline inspects one (`isinstance` checks
on `str` and `list`, `dict.get`). -/
inductive PyVal where
  | str (s : List Char)
  | list (xs : List PyVal)
  | dict (entries : List (List Char × PyVal))
  | other

/-- First normalization pass: keep only `str` items, normalize, drop empties. -/
def normalizePass (raw : List PyVal) : List (List Char) :=
  raw.filterMap fun v =>
    match v with
    | .str s => let tok := normCore s; if tok = [] then none else some tok
    | _ => none

/-- The defensive second pass of `process_resume_file`: strip, re-apply the
`NORMALIZE_MAP` rewrites, re-collapse whitespace, strip. -/
def secondPass (s : List Char) : List Char :=
  pyStrip (subRuns pySpace ' ' (applyNormalizeMap (pyStrip s)))

structure SkillProfile where
  all_skills : List (List Char)
  languages : List (List Char)
  tools : List (List Char)
  protocols : List (List Char)
  platforms : List (List Char)
  drivers : List (List Char)
  other : List (List Char)
  deriving DecidableEq

structure CatMap where
  languages : List (List Char)
  tools : List (List Char)
  protocols : List (List Char)
  platforms : List (List Char)
  drivers : List (List Char)
  other : List (List Char)

def emptyCatMap : CatMap := ⟨[], [], [], [], [], []⟩

/-- One step `categories[cat].append(s)`.  Since `categorize_skill` only ever returns the
six fixed names, so the final branch is reached exactly for `"other"`. -/
def CatMap.add (m : CatMap) (cat s : List Char) : CatMap :=
  if cat = "languages".toList then { m with languages := m.languages ++ [s] }
  else if cat = "tools".toList then { m with tools := m.tools ++ [s] }
  else if cat = "protocols".toList then { m with protocols := m.protocols ++ [s] }
  else if cat = "platforms".toList then { m with platforms := m.platforms ++ [s] }
  else if cat = "drivers".toList then { m with drivers := m.drivers ++ [s] }
  else { m with other := m.other ++ [s] }

def bucketize (final : List (List Char)) : CatMap :=
  final.foldl (fun m s => m.add (categorizeCore s) s) emptyCatMap

/-- The raw candidate list: the external (Gemini) result when it produced
one, otherwise the local keyword-scan fallback. -/
def rawCandidates (ext : Option (List PyVal)) (text : List Char) : List PyVal :=
  match ext with
  | some xs => xs
  | none => (localScan text).map PyVal.str

/-- The body of `process_resume_file` after text extraction: `ext` is the result of the
external (Gemini) call — `none` triggers the local keyword-scan fallback. -/
def processFrom (ext : Option (List PyVal)) (text : List Char) : SkillProfile :=
  let skills_raw := rawCandidates ext text
  let normalized := dedupe_preserve_order (normalizePass skills_raw)
  let final := dedupe_preserve_order (normalized.map secondPass)
  let cats := bucketize final
  ⟨final, cats.languages, cats.tools, cats.protocols, cats.platforms,
   cats.drivers, cats.other⟩

/-! The external (Gemini) call -/

/-- The search `re.search` for pattern brace-dot-star-brace with `re.DOTALL`, returning `group(0)`: from the
first `{` (that has some `}` after it) to the last `}`. -/
def bracesExtract (raw : List Char) : Option (List Char) :=
  match raw.dropWhile (fun c => !(c = '{')) with
  | [] => none
  | c :: t =>
    let r := t.reverse.dropWhile (fun c => !(c = '}'))
    if r.isEmpty then none else some (c :: r.reverse)

def isQuote (c : Char) : Bool :=
  c = '"' || c.toNat = 39

/-- The search `re.search(r'\[\s*([^\]]+?)\s*\]', raw, re.DOTALL)`, returning
`group(0)`: the first `[` whose next `]` is not immediately adjacent, up to
that `]`. -/
def arrExtractF : Nat → List Char → Option (List Char)
  | _, [] => none
  | 0, _ => none
  | fuel + 1, c :: cs =>
    if c = '[' then
      let content := cs.takeWhile (fun d => !(d = ']'))
      match cs.dropWhile (fun d => !(d = ']')) with
      | [] => none
      | _ :: _ => if content.isEmpty then arrExtractF fuel cs else some ('[' :: content ++ [']'])
    else arrExtractF fuel cs

def arrExtract (raw : List Char) : Option (List Char) :=
  arrExtractF raw.length raw

/-- The scan `re.findall` for quoted chunks: non-overlapping
(an opening quote, one or more non-quote characters, any closing quote). -/
def findQuotedF : Nat → List Char → List (List Char)
  | _, [] => []
  | 0, _ => []
  | fuel + 1, c :: cs =>
    if isQuote c then
      let mid := cs.takeWhile (fun d => !isQuote d)
      match cs.dropWhile (fun d => !isQuote d) with
      | [] => []
      | _ :: rest => if mid.isEmpty then findQuotedF fuel cs else mid :: findQuotedF fuel rest
    else findQuotedF fuel cs

def findQuoted (s : List Char) : List (List Char) :=
  findQuotedF s.length s

/-- Python `obj.get("skills", [])` for a dict, defaulting to the empty list. -/
def dictGetSkills (entries : List (List Char × PyVal)) : PyVal :=
  match entries.find? (fun kv => kv.1 = "skills".toList) with
  | some kv => kv.2
  | none => .list []

/-- The two parse strategies applied to a raw model response: the
`json.loads` behaviour itself is external (Python stdlib) and is supplied as
the parameter `loads`; a `loads` failure (exception) is `none`. -/
def parseSkillsResp (loads : List Char → Option PyVal) (raw : List Char) :
    Option (List PyVal) :=
  let fromJson : Option (List PyVal) :=
    match bracesExtract raw with
    | none => none
    | some sub =>
      match loads sub with
      | some (.dict es) =>
        match dictGetSkills es with
        | .list xs => some xs
        | _ => none
      | _ => none
  match fromJson with
  | some xs => some xs
  | none =>
    match arrExtract raw with
    | none => none
    | some grp =>
      match findQuoted grp with
      | [] => none
      | items => some (items.map PyVal.str)

/-- The outcome of one `client.models.generate_content` call: either an
exception or a raw response text. -/
inductive AttemptResult where
  | raises (msg : List Char)
  | returns (raw : List Char)

/-- The retry loop of `call_gemini_for_skills`: `remaining` is
`max_retries - attempt`.  On an exception with retries left it sleeps and
retries; on the last attempt it returns `None`; a response is parsed and
returned (parse failure also yields `None`). -/
def geminiLoop (loads : List Char → Option PyVal) (atts : Nat → AttemptResult)
    (attempt : Nat) : Nat → Option (List PyVal) × List Char
  | 0 =>
    match atts attempt with
    | .raises e => (none, "<error: ".toList ++ e ++ ">".toList)
    | .returns raw =>
      match parseSkillsResp loads raw with
      | some xs => (some xs, raw)
      | none => (none, raw)
  | rem + 1 =>
    match atts attempt with
    | .raises _ => geminiLoop loads atts (attempt + 1) rem
    | .returns raw =>
      match parseSkillsResp loads raw with
      | some xs => (some xs, raw)
      | none => (none, raw)

/-- The function `call_gemini_for_skills` with `max_retries = 2`: `keyAndClient` is false
when the API key is missing or the client library is absent, `clientOk` is
false when both client construction attempts raise. -/
def call_gemini_for_skills (loads : List Char → Option PyVal)
    (atts : Nat → AttemptResult) (keyAndClient clientOk : Bool) :
    Option (List PyVal) × List Char :=
  if !keyAndClient then (none, [])
  else if !clientOk then (none, [])
  else geminiLoop loads atts 0 2

/-- Errors of `extract_text`: unsupported extension, or an extraction
failure from the underlying reader. -/
inductive ExtractErr where
  | unsupported
  | failed (msg : List Char)

/-- The function `process_resume_file`: text extraction may fail (and that failure
propagates); afterwards the Gemini call's result — `None` on any failure —
selects between the external candidates and the local fallback inside
`processFrom`. -/
def process_resume_file (loads : List Char → Option PyVal)
    (atts : Nat → AttemptResult) (keyAndClient clientOk : Bool)
    (extracted : Except ExtractErr (List Char)) :
    Except ExtractErr SkillProfile :=
  match extracted with
  | .error e => .error e
  | .ok text =>
    .ok (processFrom (call_gemini_for_skills loads atts keyAndClient clientOk).1 text)

/-! Matching (JD vs resume) -/

/-- Computation `matched = sorted(list(resume_skills & jd_skills)) if jd_skills else
sorted(list(resume_skills))`. -/
def computeMatched (jd resume : Finset String) : List String :=
  if jd.Nonempty then (resume ∩ jd).sort (· ≤ ·) else resume.sort (· ≤ ·)

/-- Computation `missing = sorted(list(jd_skills - resume_skills)) if jd_skills else []`. -/
def computeMissing (jd resume : Finset String) : List String :=
  if jd.Nonempty then (jd \ resume).sort (· ≤ ·) else []

/-! Specification-side definitions, used to state claims. -/

/-- Specification-side description of deduplication (for the refinement
comparison with `dedupe_preserve_order`): keep the first occurrence of each
distinct element, i.e. keep the head and remove its later duplicates. -/
def specDedup : List (List Char) → List (List Char)
  | [] => []
  | x :: xs => x :: specDedup (xs.filter (fun y => !decide (y = x)))
  termination_by l => l.length
  decreasing_by
    exact Nat.lt_succ_of_le (List.length_filter_le _ xs)

/-- No two adjacent characters both satisfy `p`. -/
def noAdjPair (p : Char → Bool) : List Char → Bool
  | a :: b :: rest => !(p a && p b) && noAdjPair p (b :: rest)
  | _ => true

/-- Every period is flanked by digits on both (original) sides; `prev` is
the character before the scanned part. -/
def periodsOk : Option Char → List Char → Bool
  | _, [] => true
  | prev, c :: cs =>
    (!(c = '.') || (digitOpt prev && digitOpt cs.head?)) && periodsOk (some c) cs

/-- The first character, when present, is not whitespace. -/
def headNotSpace (s : List Char) : Bool :=
  match s.head? with
  | none => true
  | some c => !pySpace c

/-- The last character, when present, is not whitespace. -/
def lastNotSpace (s : List Char) : Bool :=
  match s.getLast? with
  | none => true
  | some c => !pySpace c

/-- A string is canonical when every stage of `normalize_token` leaves it
unchanged: already lower-case, stripped, whitespace collapsed to single
blanks, free of underscores, commas and slashes, containing no
`NORMALIZE_MAP` pattern, every period flanked by digits, and not the exact
string `node` (which the final special case rewrites). -/
def isCanonical (s : List Char) : Bool :=
  s.all (fun c => c.toLower = c) &&
  headNotSpace s &&
  lastNotSpace s &&
  s.all (fun c => !pySpace c || c = ' ') &&
  noAdjPair pySpace s &&
  s.all (fun c => !(c = '_') && !(c = ',') && !slashChar c) &&
  NORMALIZE_MAP.all (fun kv => !containsSub kv.1 s) &&
  periodsOk none s &&
  !decide (s = "node".toList)

/-- Last character of `l`, or `prev` when `l` is empty: the character left
of a position whose left context inside the scanned string is `l`. -/
def lastOr (prev : Option Char) : List Char → Option Char
  | [] => prev
  | c :: l => lastOr (some c) l

/-- The end-to-end scenario text of the specification. -/
def resumeText3 : List Char :=
  "Experienced in Python, React.js and I2C on embedded Linux with U_Boot.".toList

/-! Helper lemmas about deduplication. -/

set_option maxRecDepth 1000000

theorem dedupeGo_sublist (seen l : List (List Char)) :
    (dedupeGo seen l).Sublist l := by
  induction l generalizing seen with
  | nil => simp [dedupeGo]
  | cons x xs ih =>
    rw [dedupeGo]
    split
    · exact (ih seen).cons x
    · exact (ih (x :: seen)).cons₂ x

theorem mem_dedupeGo (seen l : List (List Char)) (a : List Char) :
    a ∈ dedupeGo seen l ↔ a ∈ l ∧ a ∉ seen := by
  induction l generalizing seen with
  | nil => simp [dedupeGo]
  | cons x xs ih =>
    rw [dedupeGo]
    split
    · rename_i hx
      rw [ih seen]
      simp only [List.mem_cons]
      constructor
      · rintro ⟨h1, h2⟩
        exact ⟨Or.inr h1, h2⟩
      · rintro ⟨h1 | h1, h2⟩
        · subst h1; exact absurd hx h2
        · exact ⟨h1, h2⟩
    · rename_i hx
      by_cases hax : a = x
      · subst hax
        simp [List.mem_cons, hx]
      · simp only [List.mem_cons, hax, false_or]
        rw [ih (x :: seen)]
        simp [List.mem_cons, hax]

theorem dedupeGo_nodup (seen l : List (List Char)) :
    (dedupeGo seen l).Nodup := by
  induction l generalizing seen with
  | nil => simp [dedupeGo]
  | cons x xs ih =>
    rw [dedupeGo]
    split
    · exact ih seen
    · refine List.nodup_cons.mpr ⟨fun hmem => ?_, ih (x :: seen)⟩
      exact ((mem_dedupeGo _ _ _).mp hmem).2 (List.mem_cons_self x seen)

theorem dedupeGo_eq_specDedup (l : List (List Char)) :
    ∀ seen, dedupeGo seen l = specDedup (l.filter (fun y => !decide (y ∈ seen))) := by
  induction l with
  | nil => intro seen; simp [dedupeGo, specDedup]
  | cons x xs ih =>
    intro seen
    rw [dedupeGo]
    split
    · rename_i hx
      rw [ih seen, List.filter_cons]
      simp [hx]
    · rename_i hx
      rw [ih (x :: seen), List.filter_cons]
      simp only [hx, decide_False, Bool.not_false, if_pos]
      rw [specDedup, List.filter_filter]
      refine congrArg (x :: ·) (congrArg specDedup (List.filter_congr fun y _ => ?_))
      by_cases hyx : y = x <;> by_cases hys : y ∈ seen <;>
        simp [hyx, hys, List.mem_cons]

/-- Helper: `dedupe_preserve_order` is exactly the first-occurrence
subsequence. -/
theorem dedupe_eq_specDedup (l : List (List Char)) :
    dedupe_preserve_order l = specDedup l := by
  rw [dedupe_preserve_order, dedupeGo_eq_specDedup]
  refine congrArg specDedup ?_
  simp

/-! Helper lemmas about categorization. -/

theorem mem_of_ite {c : Prop} [Decidable c] {a b : List Char}
    {L : List (List Char)} (ha : a ∈ L) (hb : b ∈ L) :
    (if c then a else b) ∈ L := by
  by_cases h : c <;> simp [h, ha, hb]

theorem categorizeCore_mem (t : List Char) :
    categorizeCore t ∈ ["languages".toList, "tools".toList, "protocols".toList,
      "platforms".toList, "drivers".toList, "other".toList] := by
  unfold categorizeCore categorizeLow
  refine mem_of_ite (by decide) (mem_of_ite (by decide) (mem_of_ite (by decide)
    (mem_of_ite (by decide) (mem_of_ite (by decide) (mem_of_ite (by decide)
    (mem_of_ite (by decide) (mem_of_ite (by decide) (mem_of_ite (by decide)
    (mem_of_ite (by decide) (mem_of_ite (by decide) (by decide)))))))))))

/-! Helper lemmas for the idempotence analysis (C2): conditions under which
each stage of `normalize_token` is the identity. -/

theorem pyLower_eq_self {s : List Char} (h : ∀ c ∈ s, c.toLower = c) :
    pyLower s = s := by
  rw [pyLower]
  conv_rhs => rw [← List.map_id s]
  exact List.map_congr_left h

theorem dropWhile_eq_self_of_head {p : Char → Bool} :
    ∀ {s : List Char}, (∀ c, s.head? = some c → p c = false) →
      s.dropWhile p = s
  | [], _ => rfl
  | a :: t, h => by
    rw [List.dropWhile_cons, h a rfl]
    simp

theorem pyStrip_eq_self {s : List Char} (h1 : headNotSpace s = true)
    (h2 : lastNotSpace s = true) : pyStrip s = s := by
  have e1 : s.dropWhile pySpace = s :=
    dropWhile_eq_self_of_head fun c hc => by
      rw [headNotSpace, hc] at h1
      simpa using h1
  have e2 : s.reverse.dropWhile pySpace = s.reverse :=
    dropWhile_eq_self_of_head fun c hc => by
      rw [List.head?_reverse] at hc
      rw [lastNotSpace, hc] at h2
      simpa using h2
  rw [pyStrip, e1, e2, List.reverse_reverse]

theorem noAdjPair_tail {p : Char → Bool} {a : Char} {t : List Char}
    (h : noAdjPair p (a :: t) = true) : noAdjPair p t = true := by
  cases t with
  | nil => rfl
  | cons b rest =>
    rw [noAdjPair, Bool.and_eq_true] at h
    exact h.2

theorem noAdjPair_of_not {p : Char → Bool} :
    ∀ {s : List Char}, (∀ c ∈ s, p c = false) → noAdjPair p s = true
  | [], _ => rfl
  | [_], _ => rfl
  | a :: b :: rest, h => by
    rw [noAdjPair, h a (List.mem_cons_self _ _), Bool.false_and, Bool.not_false,
      Bool.true_and]
    exact noAdjPair_of_not fun c hc => h c (List.mem_cons_of_mem a hc)

theorem subRuns_eq_self {p : Char → Bool} {r : Char} :
    ∀ {s : List Char}, (∀ c ∈ s, p c = true → c = r) →
      noAdjPair p s = true → subRuns p r s = s := by
  intro s
  induction s with
  | nil => intro _ _; rfl
  | cons a t ih =>
    intro hall hadj
    cases t with
    | nil =>
      rw [subRuns]
      by_cases hpa : p a = true
      · rw [if_pos hpa, hall a (List.mem_singleton_self a) hpa]
      · rw [if_neg hpa]
    | cons b rest =>
      rw [subRuns]
      rw [noAdjPair, Bool.and_eq_true] at hadj
      obtain ⟨h1, h2⟩ := hadj
      have hab : (p a && p b) = false := by
        rw [Bool.not_eq_true'] at h1
        exact h1
      rw [if_neg (by simp [hab])]
      have hhead : (if p a = true then r else a) = a := by
        by_cases hpa : p a = true
        · rw [if_pos hpa]
          exact (hall a (List.mem_cons_self _ _) hpa).symm
        · rw [if_neg hpa]
      rw [hhead]
      exact congrArg (a :: ·)
        (ih (fun c hc => hall c (List.mem_cons_of_mem a hc)) h2)

theorem replaceChar_eq_self {old new : Char} {s : List Char}
    (h : ∀ c ∈ s, ¬(c = old)) : replaceChar old new s = s := by
  rw [replaceChar]
  conv_rhs => rw [← List.map_id s]
  refine List.map_congr_left fun c hc => ?_
  rw [if_neg (h c hc)]
  rfl

theorem trySlash_eq_none {s : List Char} (h : ∀ c ∈ s, slashChar c = false) :
    trySlash s = none := by
  have hw : (s.dropWhile pySpace).dropWhile slashChar = s.dropWhile pySpace :=
    dropWhile_eq_self_of_head fun c hc =>
      h c ((List.dropWhile_sublist pySpace).subset (List.mem_of_mem_head? hc))
  simp [trySlash, hw]

theorem slashSubF_eq_self : ∀ (fuel : Nat) {s : List Char},
    (∀ c ∈ s, slashChar c = false) → slashSubF fuel s = s := by
  intro fuel s
  induction s generalizing fuel with
  | nil => intro _; cases fuel <;> rfl
  | cons c cs ih =>
    intro h
    cases fuel with
    | zero => rfl
    | succ f =>
      rw [slashSubF, trySlash_eq_none h]
      exact congrArg (c :: ·) (ih f (fun d hd => h d (List.mem_cons_of_mem c hd)))

theorem slashSub_eq_self {s : List Char}
    (h : ∀ c ∈ s, slashChar c = false) : slashSub s = s :=
  slashSubF_eq_self s.length h

theorem containsSub_self (k : List Char) : containsSub k k = true := by
  cases k with
  | nil => rfl
  | cons c cs =>
    rw [containsSub, Bool.or_eq_true]
    exact Or.inl (List.isPrefixOf_iff_prefix.mpr (List.prefix_refl _))

theorem containsSub_of_leading {k s : List Char} (h : k <+: s) :
    containsSub k s = true := by
  cases s with
  | nil =>
    have : k = [] := List.prefix_nil.mp h
    rw [this]
    rfl
  | cons c cs =>
    rw [containsSub, Bool.or_eq_true]
    exact Or.inl (List.isPrefixOf_iff_prefix.mpr h)

theorem containsSub_tail {c : Char} {k cs : List Char}
    (h : containsSub k (c :: cs) = false) : containsSub k cs = false := by
  rw [containsSub, Bool.or_eq_false_iff] at h
  exact h.2

theorem applyMapEntry_eq_self {s : List Char} {kv : List Char × List Char}
    (h : containsSub kv.1 s = false) : applyMapEntry s kv = s := by
  have hne : ¬(s = kv.1) := fun he => by
    rw [he, containsSub_self] at h
    exact Bool.true_eq_false.mp h
  rw [applyMapEntry, if_neg (by simp [hne, h])]

theorem foldl_applyMapEntry_eq_self :
    ∀ (L : List (List Char × List Char)) {s : List Char},
      (∀ kv ∈ L, containsSub kv.1 s = false) → L.foldl applyMapEntry s = s
  | [], _, _ => rfl
  | kv :: L, s, h => by
    rw [List.foldl_cons, applyMapEntry_eq_self (h kv (List.mem_cons_self _ _))]
    exact foldl_applyMapEntry_eq_self L fun kv2 h2 => h kv2 (List.mem_cons_of_mem kv h2)

theorem applyNormalizeMap_eq_self {s : List Char}
    (h : ∀ kv ∈ NORMALIZE_MAP, containsSub kv.1 s = false) :
    applyNormalizeMap s = s :=
  foldl_applyMapEntry_eq_self NORMALIZE_MAP h

theorem periodSub_eq_self : ∀ (prev : Option Char) {s : List Char},
    periodsOk prev s = true → periodSub prev s = s := by
  intro prev s
  induction s generalizing prev with
  | nil => intro _; rfl
  | cons c cs ih =>
    intro h
    rw [periodsOk, Bool.and_eq_true] at h
    obtain ⟨h1, h2⟩ := h
    have hcond : (decide (c = '.') && !digitOpt prev && !digitOpt cs.head?) = false := by
      revert h1
      cases decide (c = '.') <;> cases digitOpt prev <;> cases digitOpt cs.head? <;> simp
    rw [periodSub, hcond]
    simp only [Bool.false_eq_true, if_false]
    exact congrArg (c :: ·) (ih (some c) h2)

theorem takeWhile_length_le_one {p : Char → Bool} {l : List Char}
    (h : noAdjPair p l = true) : (l.takeWhile p).length ≤ 1 := by
  cases l with
  | nil => simp
  | cons a t =>
    cases t with
    | nil =>
      rw [List.takeWhile_cons]
      split <;> simp
    | cons b rest =>
      rw [noAdjPair, Bool.and_eq_true] at h
      obtain ⟨h1, _⟩ := h
      rw [List.takeWhile_cons]
      split
      · rename_i hpa
        rw [List.takeWhile_cons]
        split
        · rename_i hpb
          rw [hpa, hpb] at h1
          exact absurd h1 (by simp)
        · simp
      · simp

/-- Inversion of a successful `\busb\s+3\s+0\b` anchored match. -/
theorem tryUsb_some {prev : Option Char} {s r4 : List Char}
    (h : tryUsb prev s = some r4) :
    ∃ r0 r2, s = 'u' :: 's' :: 'b' :: r0 ∧
      ¬(r0.takeWhile pySpace).isEmpty = true ∧
      r0.dropWhile pySpace = '3' :: r2 ∧
      ¬(r2.takeWhile pySpace).isEmpty = true ∧
      r2.dropWhile pySpace = '0' :: r4 := by
  delta tryUsb at h
  split at h
  · simp at h
  · split at h
    · rename_i r0
      dsimp only at h
      split at h
      · simp at h
      · rename_i hw1
        split at h
        · rename_i r2 hd1
          split at h
          · simp at h
          · rename_i hw2
            split at h
            · rename_i r4a hd2
              split at h
              · simp at h
              · rw [Option.some.injEq] at h
                subst h
                exact ⟨r0, r2, rfl, hw1, hd1, hw2, hd2⟩
            · simp at h
        · simp at h
    · simp at h

theorem tryUsb_eq_none {s : List Char} (prev : Option Char)
    (hnk : containsSub ("usb 3 0".toList) s = false)
    (hab : ∀ c ∈ s, pySpace c = true → c = ' ')
    (hadj : noAdjPair pySpace s = true) :
    tryUsb prev s = none := by
  cases htry : tryUsb prev s with
  | none => rfl
  | some r4 =>
    exfalso
    obtain ⟨r0, r2, hs, hw1, hd1, hw2, hd2⟩ := tryUsb_some htry
    subst hs
    have hadj0 : noAdjPair pySpace r0 = true :=
      noAdjPair_tail (noAdjPair_tail (noAdjPair_tail hadj))
    have hab0 : ∀ c ∈ r0, pySpace c = true → c = ' ' := fun c hc =>
      hab c (List.mem_cons_of_mem _ (List.mem_cons_of_mem _ (List.mem_cons_of_mem _ hc)))
    -- the first whitespace run is exactly one blank
    obtain ⟨x1, hx1⟩ : ∃ x, r0.takeWhile pySpace = [x] := by
      refine List.length_eq_one.mp (Nat.le_antisymm (takeWhile_length_le_one hadj0) ?_)
      rcases hq : r0.takeWhile pySpace with _ | ⟨y, t⟩
      · rw [hq] at hw1; simp at hw1
      · simp
    have hx1s : x1 = ' ' := by
      have hmem : x1 ∈ r0.takeWhile pySpace := by rw [hx1]; exact List.mem_singleton_self x1
      exact hab0 x1 ((List.takeWhile_sublist pySpace).subset hmem) (List.mem_takeWhile_imp hmem)
    have hr0 : r0 = ' ' :: '3' :: r2 := by
      have := List.takeWhile_append_dropWhile pySpace r0
      rw [hx1, hd1, hx1s] at this
      exact this.symm
    -- the second whitespace run is exactly one blank
    have hadj2 : noAdjPair pySpace r2 = true := by
      rw [hr0] at hadj0
      exact noAdjPair_tail (noAdjPair_tail hadj0)
    have hab2 : ∀ c ∈ r2, pySpace c = true → c = ' ' := by
      intro c hc
      refine hab0 c ?_
      rw [hr0]
      exact List.mem_cons_of_mem _ (List.mem_cons_of_mem _ hc)
    obtain ⟨x2, hx2⟩ : ∃ x, r2.takeWhile pySpace = [x] := by
      refine List.length_eq_one.mp (Nat.le_antisymm (takeWhile_length_le_one hadj2) ?_)
      rcases hq : r2.takeWhile pySpace with _ | ⟨y, t⟩
      · rw [hq] at hw2; simp at hw2
      · simp
    have hx2s : x2 = ' ' := by
      have hmem : x2 ∈ r2.takeWhile pySpace := by rw [hx2]; exact List.mem_singleton_self x2
      exact hab2 x2 ((List.takeWhile_sublist pySpace).subset hmem) (List.mem_takeWhile_imp hmem)
    have hr2 : r2 = ' ' :: '0' :: r4 := by
      have := List.takeWhile_append_dropWhile pySpace r2
      rw [hx2, hd2, hx2s] at this
      exact this.symm
    -- so the string starts with the `usb 3 0` pattern, contradicting hnk
    have hpre : ("usb 3 0".toList) <+: ('u' :: 's' :: 'b' :: r0) := by
      rw [hr0, hr2]
      exact ⟨r4, rfl⟩
    rw [containsSub_of_leading hpre] at hnk
    exact Bool.true_eq_false.mp hnk

theorem usbSubF_eq_self : ∀ (fuel : Nat) (prev : Option Char) {s : List Char},
    containsSub ("usb 3 0".toList) s = false →
    (∀ c ∈ s, pySpace c = true → c = ' ') →
    noAdjPair pySpace s = true →
    usbSubF fuel prev s = s := by
  intro fuel prev s
  induction s generalizing fuel prev with
  | nil => intro _ _ _; cases fuel <;> rfl
  | cons c cs ih =>
    intro hnk hab hadj
    cases fuel with
    | zero => rfl
    | succ f =>
      rw [usbSubF, tryUsb_eq_none prev hnk hab hadj]
      exact congrArg (c :: ·)
        (ih f (some c) (containsSub_tail hnk)
          (fun d hd => hab d (List.mem_cons_of_mem c hd)) (noAdjPair_tail hadj))

theorem usbSub_eq_self {s : List Char}
    (hnk : containsSub ("usb 3 0".toList) s = false)
    (hab : ∀ c ∈ s, pySpace c = true → c = ' ')
    (hadj : noAdjPair pySpace s = true) : usbSub s = s :=
  usbSubF_eq_self s.length none hnk hab hadj

/-- Canonical strings are fixed points of `normalize_token`. -/
theorem normCore_eq_self {s : List Char} (h : isCanonical s = true) :
    normCore s = s := by
  by_cases hs0 : s = []
  · rw [hs0]; rfl
  rw [isCanonical] at h
  simp only [Bool.and_eq_true] at h
  obtain ⟨⟨⟨⟨⟨⟨⟨⟨hlow, hhead⟩, hlast⟩, hblank⟩, hadj⟩, hpunct⟩, hkey⟩, hper⟩, hnode⟩ := h
  have hblank2 : ∀ c ∈ s, pySpace c = true → c = ' ' := by
    intro c hc hsp
    have hb := List.all_eq_true.mp hblank c hc
    rw [hsp] at hb
    simp only [Bool.not_true, Bool.false_or] at hb
    exact of_decide_eq_true hb
  have hpunct2 : ∀ c ∈ s, ¬(c = '_') ∧ ¬(c = ',') ∧ slashChar c = false := by
    intro c hc
    have hp := List.all_eq_true.mp hpunct c hc
    rw [Bool.and_eq_true, Bool.and_eq_true, Bool.not_eq_true', Bool.not_eq_true',
      Bool.not_eq_true', decide_eq_false_iff_not, decide_eq_false_iff_not] at hp
    exact ⟨hp.1.1, hp.1.2, hp.2⟩
  have hUT : ∀ c ∈ s, (decide (c = '_') || decide (c = '\t')) = false := by
    intro c hc
    rw [Bool.or_eq_false_iff, decide_eq_false_iff_not, decide_eq_false_iff_not]
    refine ⟨(hpunct2 c hc).1, ?_⟩
    intro he
    have hcc : c = ' ' := hblank2 c hc (by rw [he]; decide)
    rw [he] at hcc
    exact absurd hcc (by decide)
  have hcomma : ∀ c ∈ s, ¬(c = ',') := fun c hc => (hpunct2 c hc).2.1
  have hslash : ∀ c ∈ s, slashChar c = false := fun c hc => (hpunct2 c hc).2.2
  have hkey2 : ∀ kv ∈ NORMALIZE_MAP, containsSub kv.1 s = false := by
    intro kv hkv
    have hk := List.all_eq_true.mp hkey kv hkv
    rw [Bool.not_eq_true'] at hk
    exact hk
  have hlow2 : ∀ c ∈ s, c.toLower = c := fun c hc =>
    of_decide_eq_true (List.all_eq_true.mp hlow c hc)
  have hnode2 : ¬(s = "node".toList) := by
    rw [Bool.not_eq_true', decide_eq_false_iff_not] at hnode
    exact hnode
  have hreactjs : ¬(s = "reactjs".toList) := by
    intro he
    have hk := hkey2 ("reactjs".toList, "react".toList) (by decide)
    rw [he, containsSub_self] at hk
    exact Bool.true_eq_false.mp hk
  rw [normCore, if_neg hs0]
  dsimp only
  rw [pyStrip_eq_self hhead hlast, pyLower_eq_self hlow2,
    subRuns_eq_self (fun c hc hp => absurd hp (by rw [hUT c hc]; simp))
      (noAdjPair_of_not hUT),
    slashSub_eq_self hslash, replaceChar_eq_self hcomma,
    subRuns_eq_self hblank2 hadj, applyNormalizeMap_eq_self hkey2,
    periodSub_eq_self none hper, pyStrip_eq_self hhead hlast,
    usbSub_eq_self (hkey2 ("usb 3 0".toList, "usb 3.0".toList) (by decide)) hblank2 hadj,
    subRuns_eq_self hblank2 hadj,
    if_neg hnode2, if_neg hreactjs]

/-! Helper lemmas for the profile partition invariant (C9): the bucketing
fold produces exactly the filters of the final skill list. -/

theorem bucketFold_eq (l : List (List Char)) (acc : CatMap) :
    l.foldl (fun m s => m.add (categorizeCore s) s) acc =
      ⟨acc.languages ++ l.filter (fun s => decide (categorizeCore s = "languages".toList)),
       acc.tools ++ l.filter (fun s => decide (categorizeCore s = "tools".toList)),
       acc.protocols ++ l.filter (fun s => decide (categorizeCore s = "protocols".toList)),
       acc.platforms ++ l.filter (fun s => decide (categorizeCore s = "platforms".toList)),
       acc.drivers ++ l.filter (fun s => decide (categorizeCore s = "drivers".toList)),
       acc.other ++ l.filter (fun s => decide (categorizeCore s = "other".toList))⟩ := by
  induction l generalizing acc with
  | nil => cases acc; simp
  | cons x xs ih =>
    rw [List.foldl_cons, ih]
    have hx := categorizeCore_mem x
    simp only [List.mem_cons, List.not_mem_nil, or_false] at hx
    rcases hx with h | h | h | h | h | h <;>
      rw [h] <;>
      simp +decide [CatMap.add, List.filter_cons, h, List.append_assoc]

theorem count_filter_matching {x : List Char} {l : List (List Char)} {name : List Char}
    (h : categorizeCore x = name) :
    List.count x (l.filter (fun s => decide (categorizeCore s = name))) = List.count x l :=
  List.count_filter (by rw [h]; simp)

theorem count_filter_other {x : List Char} {l : List (List Char)} {name : List Char}
    (h : ¬(categorizeCore x = name)) :
    List.count x (l.filter (fun s => decide (categorizeCore s = name))) = 0 := by
  rw [List.count_eq_zero]
  intro hmem
  exact h (of_decide_eq_true (List.mem_filter.mp hmem).2)

theorem count_eq_one_nodup {x : List Char} {l : List (List Char)}
    (hn : l.Nodup) (hx : x ∈ l) : List.count x l = 1 := by
  induction l with
  | nil => simp at hx
  | cons a t ih =>
    rw [List.nodup_cons] at hn
    rw [List.count_cons]
    rcases List.mem_cons.mp hx with rfl | hmt
    · rw [List.count_eq_zero.mpr hn.1]
      simp
    · have hne : (a == x) = false := by
        rw [beq_eq_false_iff_ne]
        rintro rfl
        exact hn.1 hmt
      rw [ih hn.2 hmt]
      simp [hne]

/-! Helper lemmas for the keyword-scan characterization (C10). -/

theorem lastOr_cons (prev : Option Char) (c : Char) (l : List Char) :
    lastOr prev (c :: l) = lastOr (some c) l := rfl

/-- The scan finds `kw` exactly when the text decomposes around an
occurrence of `kw` with a word boundary on each side. -/
theorem kwGo_iff (kw : List Char) :
    ∀ (s : List Char) (prev : Option Char),
      kwGo kw prev s = true ↔
        ∃ l r, s = l ++ kw ++ r ∧
          boundary (lastOr prev l) kw.head? = true ∧
          boundary kw.getLast? r.head? = true := by
  intro s
  induction s with
  | nil =>
    intro prev
    rw [kwGo]
    constructor
    · intro h
      rw [matchHere, Bool.and_eq_true, Bool.and_eq_true] at h
      obtain ⟨⟨hpre, hb1⟩, hb2⟩ := h
      have hkw : kw = [] :=
        List.prefix_nil.mp (List.isPrefixOf_iff_prefix.mp hpre)
      refine ⟨[], [], by simp [hkw], ?_, ?_⟩
      · simpa [lastOr] using hb1
      · simpa [hkw] using hb2
    · rintro ⟨l, r, hs, hb1, hb2⟩
      obtain ⟨hlk, hr⟩ := List.append_eq_nil.mp hs.symm
      obtain ⟨hl, hkw⟩ := List.append_eq_nil.mp hlk
      rw [matchHere, Bool.and_eq_true, Bool.and_eq_true]
      refine ⟨⟨?_, ?_⟩, ?_⟩
      · rw [hkw]; rfl
      · rw [hl] at hb1; simpa [lastOr] using hb1
      · rw [hr] at hb2; simpa [hkw] using hb2
  | cons c cs ih =>
    intro prev
    rw [kwGo, Bool.or_eq_true, ih (some c)]
    constructor
    · rintro (hm | ⟨l, r, hcs, hb1, hb2⟩)
      · rw [matchHere, Bool.and_eq_true, Bool.and_eq_true] at hm
        obtain ⟨⟨hpre, hb1⟩, hb2⟩ := hm
        obtain ⟨r, hr⟩ := List.isPrefixOf_iff_prefix.mp hpre
        refine ⟨[], r, by rw [← hr]; rfl, ?_, ?_⟩
        · simpa [lastOr] using hb1
        · rw [← hr, List.drop_left] at hb2
          exact hb2
      · exact ⟨c :: l, r, by rw [hcs]; rfl,
          by rwa [lastOr_cons], hb2⟩
    · rintro ⟨l, r, hs, hb1, hb2⟩
      cases l with
      | nil =>
        left
        rw [matchHere, Bool.and_eq_true, Bool.and_eq_true]
        have hs' : c :: cs = kw ++ r := by simpa using hs
        refine ⟨⟨?_, ?_⟩, ?_⟩
        · rw [List.isPrefixOf_iff_prefix, hs']
          exact List.prefix_append kw r
        · simpa [lastOr] using hb1
        · rw [hs', List.drop_left]
          exact hb2
      | cons d l' =>
        right
        rw [List.cons_append, List.cons_append, List.cons.injEq] at hs
        obtain ⟨rfl, hcs⟩ := hs
        exact ⟨l', r, hcs, by rwa [lastOr_cons] at hb1, hb2⟩

theorem boundary_left_word {x : Option Char} {c : Char} (hc : wordChar c = true) :
    boundary x (some c) = !wordOpt x := by
  rw [boundary]
  have : wordOpt (some c) = true := hc
  rw [this]
  cases wordOpt x <;> rfl

theorem boundary_right_nonword {y : Option Char} {c : Char} (hc : wordChar c = false) :
    boundary (some c) y = wordOpt y := by
  rw [boundary]
  have : wordOpt (some c) = false := hc
  rw [this]
  cases wordOpt y <;> rfl

/-- Characterization of when the fallback finds a keyword that starts with a
word character and ends with a non-word character (such as `c++` or `c#`). -/
theorem scan_mem_characterization {kw : List Char} (hmem : kw ∈ BASE_KEYWORDS)
    {cFirst cLast : Char} (hHead : kw.head? = some cFirst)
    (hLast : kw.getLast? = some cLast)
    (hw1 : wordChar cFirst = true) (hw2 : wordChar cLast = false)
    (text : List Char) :
    kw ∈ localScan text ↔
      ∃ l r, pyLower text = l ++ kw ++ r ∧
        wordOpt (lastOr none l) = false ∧ wordOpt r.head? = true := by
  rw [localScan, List.mem_filter]
  constructor
  · rintro ⟨_, hkw⟩
    obtain ⟨l, r, hsplit, hb1, hb2⟩ := (kwGo_iff kw (pyLower text) none).mp hkw
    rw [hHead, boundary_left_word hw1, Bool.not_eq_true'] at hb1
    rw [hLast, boundary_right_nonword hw2] at hb2
    exact ⟨l, r, hsplit, hb1, hb2⟩
  · rintro ⟨l, r, hsplit, hb1, hb2⟩
    refine ⟨hmem, (kwGo_iff kw (pyLower text) none).mpr ⟨l, r, hsplit, ?_, ?_⟩⟩
    · rw [hHead, boundary_left_word hw1, hb1]
      rfl
    · rw [hLast, boundary_right_nonword hw2]
      exact hb2

/-! Helper lemma for the external-call retry loop (C6). -/

theorem geminiLoop_all_raise (loads : List Char → Option PyVal)
    (atts : Nat → AttemptResult) :
    ∀ (rem attempt : Nat),
      (∀ i, attempt ≤ i → i ≤ attempt + rem → ∃ m, atts i = .raises m) →
      ∃ msg, geminiLoop loads atts attempt rem = (none, msg) := by
  intro rem
  induction rem with
  | zero =>
    intro attempt h
    obtain ⟨m, hm⟩ := h attempt le_rfl (by omega)
    rw [geminiLoop, hm]
    exact ⟨_, rfl⟩
  | succ rem ih =>
    intro attempt h
    obtain ⟨m, hm⟩ := h attempt le_rfl (by omega)
    rw [geminiLoop, hm]
    exact ih (attempt + 1) (fun i h1 h2 => h i (by omega) (by omega))

/-! Claim theorems. -/

/-- C1: of the listed table cases, five hold, but `normalize("node js")`
is `"node js"`, not `"node.js"`: the `NORMALIZE_MAP` rewrite to `node.js`
is undone by the subsequent period-removal step (the map itself, the
`node -> node.js` special case and the `node.js` base keyword all declare
`node.js` as the intended canonical form). -/
theorem normalize_table_cases_node_divergence :
    normalize_token "React.JS" = "react" ∧
    normalize_token "PowerBI" = "power bi" ∧
    normalize_token "u_boot" = "u-boot" ∧
    normalize_token "I 2 C" = "i2c" ∧
    normalize_token "USB3.0" = "usb 3.0" ∧
    normalize_token "node js" = "node js" ∧
    normalize_token "node js" ≠ "node.js" := by
  refine ⟨by decide, by decide, by decide, by decide, by decide, by decide, by decide⟩

/-- C3 (counterexample): on the end-to-end scenario text with the local
fallback, the claim fails: `u-boot` is not among the extracted skills (the
scan searches the raw text for the canonical keyword `u-boot`, which the
text's `u_boot` does not match), and `react` is not categorized as a
language. -/
theorem endtoend_scenario_claim_fails :
    "u-boot".toList ∉ (processFrom none resumeText3).all_skills ∧
    "react".toList ∉ (processFrom none resumeText3).languages := by
  refine ⟨by decide, by decide⟩

/-- C3 (amended): the actual profile for the scenario text under the local
fallback: skills `python, react, embedded linux, i2c, linux` (no `u-boot`),
with `python` a language, `i2c` a protocol, `embedded linux` a platform,
and `react` and `linux` in `other`. -/
theorem endtoend_scenario_actual_profile :
    processFrom none resumeText3 =
      ⟨["python".toList, "react".toList, "embedded linux".toList,
        "i2c".toList, "linux".toList],
       ["python".toList], [], ["i2c".toList], ["embedded linux".toList], [],
       ["react".toList, "linux".toList]⟩ := by
  decide

/-- C7: categorization is total into the six fixed categories — for every
input string the result is one of the six names — and the six listed
sample cases hold. -/
theorem categorize_total_and_cases :
    (∀ s : String, categorize_skill s ∈
      (["languages", "tools", "protocols", "platforms", "drivers", "other"] :
        List String)) ∧
    categorize_skill "python" = "languages" ∧
    categorize_skill "docker" = "tools" ∧
    categorize_skill "i2c" = "protocols" ∧
    categorize_skill "yocto" = "platforms" ∧
    categorize_skill "bootloader" = "drivers" ∧
    categorize_skill "excel" = "other" := by
  refine ⟨fun s => ?_, by decide, by decide, by decide, by decide, by decide, by decide⟩
  have h := categorizeCore_mem s.toList
  simp only [List.mem_cons, List.not_mem_nil, or_false] at h
  unfold categorize_skill
  rcases h with h | h | h | h | h | h <;> rw [h] <;> decide

/-- C8: `dedupe_preserve_order` returns exactly the first-occurrence
subsequence: it equals the specification-side `specDedup`, is a duplicate-free
sublist of the input (hence preserves relative order) with the same members,
and the listed example holds. -/
theorem dedupe_first_occurrence :
    (∀ l : List (List Char),
      dedupe_preserve_order l = specDedup l ∧
      (dedupe_preserve_order l).Sublist l ∧
      (dedupe_preserve_order l).Nodup ∧
      (∀ x, x ∈ dedupe_preserve_order l ↔ x ∈ l)) ∧
    dedupe_preserve_order ["python".toList, "java".toList, "python".toList]
      = ["python".toList, "java".toList] := by
  refine ⟨fun l => ⟨dedupe_eq_specDedup l, dedupeGo_sublist [] l,
    dedupeGo_nodup [] l, fun x => ?_⟩, by decide⟩
  rw [dedupe_preserve_order, mem_dedupeGo]
  simp

/-- C10 (counterexample): the local fallback CAN produce `c++`: in the text
`c++11` the trailing `+` is followed by the word character `1`, which is a
`\b` boundary, so the keyword `c++` matches and ends up in the profile. -/
theorem scan_finds_cpp_in_cpp11 :
    "c++".toList ∈ localScan "c++11".toList ∧
    "c++".toList ∈ (processFrom none "c++11".toList).all_skills := by
  refine ⟨by decide, by decide⟩

/-- C2 (counterexample): normalization is NOT idempotent: `normalize("node")`
is `"node.js"` (the final special case), but re-normalizing strips the period
again, giving `"node js"`. -/
theorem normalize_not_idempotent :
    normalize_token (normalize_token "node") ≠ normalize_token "node" := by
  decide

/-- C2 (amended): normalization is idempotent on every input whose normal
form is canonical (`isCanonical`): already lower-case and stripped, single
internal blanks, no underscore/comma/slash, no `NORMALIZE_MAP` pattern
occurring, every period flanked by digits, and not the exact string `node`.
In general it is not idempotent (see the counterexample). -/
theorem normalize_idempotent_on_canonical (x : String)
    (h : isCanonical (normCore x.toList) = true) :
    normalize_token (normalize_token x) = normalize_token x := by
  unfold normalize_token
  exact congrArg List.asString (normCore_eq_self h)

theorem normalize_idempotent_on_canonical_witness :
    isCanonical (normCore "python".toList) = true ∧
    normalize_token (normalize_token "python") = normalize_token "python" :=
  ⟨by decide, normalize_idempotent_on_canonical "python" (by decide)⟩

/-- C9: every profile produced by the pipeline (for any external-source
outcome and any text) has duplicate-free `all_skills`, each of the six
category lists is a sublist of `all_skills` (so each preserves its relative
order), and every skill in `all_skills` occurs in exactly one category list
(the six lists are present by construction of `SkillProfile`). -/
theorem profile_six_category_partition (ext : Option (List PyVal)) (text : List Char) :
    (processFrom ext text).all_skills.Nodup ∧
    ((processFrom ext text).languages.Sublist (processFrom ext text).all_skills ∧
     (processFrom ext text).tools.Sublist (processFrom ext text).all_skills ∧
     (processFrom ext text).protocols.Sublist (processFrom ext text).all_skills ∧
     (processFrom ext text).platforms.Sublist (processFrom ext text).all_skills ∧
     (processFrom ext text).drivers.Sublist (processFrom ext text).all_skills ∧
     (processFrom ext text).other.Sublist (processFrom ext text).all_skills) ∧
    ∀ x ∈ (processFrom ext text).all_skills,
      List.count x ((processFrom ext text).languages ++ (processFrom ext text).tools ++
        (processFrom ext text).protocols ++ (processFrom ext text).platforms ++
        (processFrom ext text).drivers ++ (processFrom ext text).other) = 1 := by
  obtain ⟨final, hfinal, heq⟩ : ∃ final,
      final = dedupe_preserve_order ((dedupe_preserve_order
        (normalizePass (rawCandidates ext text))).map secondPass) ∧
      processFrom ext text =
        ⟨final,
         final.filter (fun s => decide (categorizeCore s = "languages".toList)),
         final.filter (fun s => decide (categorizeCore s = "tools".toList)),
         final.filter (fun s => decide (categorizeCore s = "protocols".toList)),
         final.filter (fun s => decide (categorizeCore s = "platforms".toList)),
         final.filter (fun s => decide (categorizeCore s = "drivers".toList)),
         final.filter (fun s => decide (categorizeCore s = "other".toList))⟩ := by
    refine ⟨_, rfl, ?_⟩
    rw [processFrom]
    rw [bucketize, bucketFold_eq]
    simp [emptyCatMap]
  have hnodup : final.Nodup := by
    rw [hfinal]
    exact dedupeGo_nodup _ _
  rw [heq]
  refine ⟨hnodup, ⟨List.filter_sublist _, List.filter_sublist _, List.filter_sublist _,
    List.filter_sublist _, List.filter_sublist _, List.filter_sublist _⟩, ?_⟩
  intro x hx
  have h1 : List.count x final = 1 := count_eq_one_nodup hnodup hx
  have hx6 := categorizeCore_mem x
  simp only [List.mem_cons, List.not_mem_nil, or_false] at hx6
  simp only [List.count_append]
  rcases hx6 with h | h | h | h | h | h <;>
    rw [count_filter_matching h, h1] <;>
    · rw [count_filter_other (by rw [h]; decide), count_filter_other (by rw [h]; decide),
        count_filter_other (by rw [h]; decide), count_filter_other (by rw [h]; decide),
        count_filter_other (by rw [h]; decide)]

theorem profile_six_category_partition_witness :
    List.count ("python".toList)
      ((processFrom none "python".toList).languages ++ (processFrom none "python".toList).tools ++
        (processFrom none "python".toList).protocols ++ (processFrom none "python".toList).platforms ++
        (processFrom none "python".toList).drivers ++ (processFrom none "python".toList).other) = 1 :=
  (profile_six_category_partition none "python".toList).2.2 ("python".toList) (by decide)

/-- C10 (amended): the fallback finds `c++` (resp. `c#`) exactly when the
lowered text contains an occurrence of it that is preceded by no word
character and followed by a word character — the `\b` after the trailing
`+`/`#` matches precisely when the NEXT character is a word character, so
such candidates are possible (e.g. in `c++11`), contrary to the claim, but
never arise when every occurrence is followed by space, punctuation or the
end of the text. -/
theorem scan_cpp_csharp_characterization (text : List Char) :
    ("c++".toList ∈ localScan text ↔
      ∃ l r, pyLower text = l ++ "c++".toList ++ r ∧
        wordOpt (lastOr none l) = false ∧ wordOpt r.head? = true) ∧
    ("c#".toList ∈ localScan text ↔
      ∃ l r, pyLower text = l ++ "c#".toList ++ r ∧
        wordOpt (lastOr none l) = false ∧ wordOpt r.head? = true) :=
  ⟨@scan_mem_characterization ("c++".toList) (by decide) 'c' '+' rfl rfl
      (by decide) (by decide) text,
   @scan_mem_characterization ("c#".toList) (by decide) 'c' '#' rfl rfl
      (by decide) (by decide) text⟩

/-- C4 (counterexample): with an empty reference profile, `matched`
degenerates to the candidate's whole (sorted) skill set, so
`matched ⊆ R.skills` fails. -/
theorem match_subset_fails_on_empty_reference :
    "python" ∈ computeMatched ∅ {"python"} ∧ "python" ∉ (∅ : Finset String) := by
  constructor
  · rw [computeMatched, if_neg (by simp)]
    simp [Finset.mem_sort]
  · simp

/-- C4 (amended): `matched ⊆ C.skills`, `missing = R.skills − C.skills` and
`matched ∩ missing = ∅` hold for all profiles; `matched ⊆ R.skills` holds
whenever `R` has at least one skill (when `R` is empty, `matched` is instead
all of `C`'s skills). -/
theorem match_sets_properties (jd resume : Finset String) :
    (∀ x ∈ computeMatched jd resume, x ∈ resume) ∧
    (jd.Nonempty → ∀ x ∈ computeMatched jd resume, x ∈ jd) ∧
    (∀ x, x ∈ computeMissing jd resume ↔ x ∈ jd ∧ x ∉ resume) ∧
    (∀ x, x ∈ computeMatched jd resume → x ∉ computeMissing jd resume) := by
  by_cases hjd : jd.Nonempty
  · rw [computeMatched, computeMissing, if_pos hjd, if_pos hjd]
    refine ⟨?_, ?_, ?_, ?_⟩
    · intro x hx
      exact (Finset.mem_inter.mp ((Finset.mem_sort _).mp hx)).1
    · intro _ x hx
      exact (Finset.mem_inter.mp ((Finset.mem_sort _).mp hx)).2
    · intro x
      rw [Finset.mem_sort, Finset.mem_sdiff]
    · intro x hx hmiss
      rw [Finset.mem_sort, Finset.mem_sdiff] at hmiss
      exact hmiss.2 (Finset.mem_inter.mp ((Finset.mem_sort _).mp hx)).1
  · rw [computeMatched, computeMissing, if_neg hjd, if_neg hjd]
    refine ⟨?_, fun h => absurd h hjd, ?_, ?_⟩
    · intro x hx
      exact (Finset.mem_sort _).mp hx
    · intro x
      simp [Finset.not_nonempty_iff_eq_empty.mp hjd]
    · intro x _ hx
      simp at hx

theorem match_sets_properties_witness :
    "python" ∈ ({"python"} : Finset String) :=
  (match_sets_properties {"python"} {"python"}).2.1 ⟨"python", by decide⟩ "python"
    (by rw [computeMatched, if_pos (Finset.singleton_nonempty _)]
        simp [Finset.mem_sort])

/-- C5: when the reference profile has no skills, `missing` is empty and
`matched` is exactly the candidate's skill set, sorted lexicographically
ascending (`≤` on `String`) without duplicates. -/
theorem empty_reference_match (jd resume : Finset String) (h : jd = ∅) :
    computeMissing jd resume = [] ∧
    List.Sorted (· ≤ ·) (computeMatched jd resume) ∧
    (computeMatched jd resume).Nodup ∧
    (∀ x, x ∈ computeMatched jd resume ↔ x ∈ resume) := by
  subst h
  rw [computeMissing, computeMatched, if_neg Finset.not_nonempty_empty,
    if_neg Finset.not_nonempty_empty]
  exact ⟨rfl, Finset.sort_sorted _ _, Finset.sort_nodup _ _, fun x => Finset.mem_sort _⟩

theorem empty_reference_match_witness :
    computeMissing ∅ {"b", "a"} = [] ∧
    List.Sorted (· ≤ ·) (computeMatched ∅ {"b", "a"}) :=
  ⟨(empty_reference_match ∅ {"b", "a"} rfl).1,
   (empty_reference_match ∅ {"b", "a"} rfl).2.1⟩

/-- C6: once text extraction has succeeded the pipeline always returns a
profile: extraction errors are the only error channel, a profile exists for
every external-source behaviour (any parse function, any sequence of call
outcomes), and when every attempt raises, the pipeline degrades to the
local keyword-scan fallback instead of propagating the failure. -/
theorem pipeline_total_after_extraction (loads : List Char → Option PyVal)
    (atts : Nat → AttemptResult) (keyAndClient clientOk : Bool) (text : List Char) :
    (∀ e, process_resume_file loads atts keyAndClient clientOk (.error e) = .error e) ∧
    (∃ p, process_resume_file loads atts keyAndClient clientOk (.ok text) = .ok p) ∧
    ((∀ i, i ≤ 2 → ∃ m, atts i = .raises m) →
      process_resume_file loads atts keyAndClient clientOk (.ok text)
        = .ok (processFrom none text)) := by
  refine ⟨fun e => rfl, ⟨_, rfl⟩, fun hall => ?_⟩
  cases keyAndClient with
  | false => rfl
  | true =>
    cases clientOk with
    | false => rfl
    | true =>
      obtain ⟨msg, hmsg⟩ := geminiLoop_all_raise loads atts 2 0
        (fun i _ h2 => hall i (by omega))
      show Except.ok (processFrom (call_gemini_for_skills loads atts true true).1 text)
          = Except.ok (processFrom none text)
      rw [show call_gemini_for_skills loads atts true true
          = geminiLoop loads atts 0 2 from rfl, hmsg]

theorem pipeline_total_after_extraction_witness :
    process_resume_file (fun _ => none) (fun _ => .raises "boom".toList) true true
      (.ok "python".toList) = .ok (processFrom none "python".toList) :=
  (pipeline_total_after_extraction (fun _ => none) (fun _ => .raises "boom".toList)
    true true "python".toList).2.2 (fun _ _ => ⟨"boom".toList, rfl⟩)

end SkillExtractor
